import Mathlib

/-!
Verification of the armpp register-field abstraction layer.

The definitions below are a shallow embedding of the register field system
of `include/armpp/hal/registers.hpp`, the bit-mask utility of
`include/armpp/util/mask.hpp`, and the NVIC layout of
`include/armpp/hal/nvic.hpp`.  Machine words (`raw_register`, i.e.
`std::uint32_t`) are modelled as `Nat`, with explicit `% 2 ^ 32` where the
C++ unsigned arithmetic can wrap.
-/

namespace armpp

/-- Width in bits of `raw_register` (`std::uint32_t`): `register_bits` of
`common_types.hpp`. -/
def register_bits : Nat := 32

/-- Embedding of `armpp::util::bit_sequence<Length>::value`: `Length`
contiguous one-bits starting at bit 0, defined in the source by the
recursion `bit_sequence<L> = (bit_sequence<L-1> << 1) | 1` with base case
`bit_sequence<1> = 1`.  The C++ template is only instantiable for
`Length >= 1`; the value at `0` here is the vacuous empty bit-sequence. -/
def bit_sequence : Nat → Nat
  | 0 => 0
  | n + 1 => (bit_sequence n <<< 1) ||| 1

/-- Embedding of `armpp::util::bit_mask<Offset, Length>::value =
bit_sequence_v<Length> << Offset`. -/
def bit_mask (offset length : Nat) : Nat :=
  bit_sequence length <<< offset

/-- The recursive `bit_sequence` computes `2 ^ n - 1`. -/
theorem bit_sequence_eq (n : Nat) : bit_sequence n = 2 ^ n - 1 := by
  induction n with
  | zero => rfl
  | succ n ih =>
    apply Nat.eq_of_testBit_eq
    intro i
    simp only [bit_sequence, ih, Nat.testBit_or, Nat.testBit_shiftLeft,
      Nat.testBit_two_pow_sub_one]
    cases i with
    | zero => simp
    | succ i =>
      have h1 : Nat.testBit 1 (i + 1) = false := by
        simpa using Nat.testBit_two_pow_sub_one 1 (i + 1)
      simp [h1]

/-- Bit-level characterisation of `bit_mask`: bit `j` is set iff
`offset ≤ j < offset + length`. -/
theorem testBit_bit_mask (offset length j : Nat) :
    (bit_mask offset length).testBit j = decide (offset ≤ j ∧ j < offset + length) := by
  simp only [bit_mask, bit_sequence_eq, Nat.testBit_shiftLeft,
    Nat.testBit_two_pow_sub_one]
  by_cases h : offset ≤ j
  · simp [h]
    omega
  · simp [h]

/-- A value below `2 ^ w` has no set bit at positions `≥ w`. -/
theorem testBit_eq_false_of_lt_pow (v w j : Nat) (hv : v < 2 ^ w) (hj : w ≤ j) :
    v.testBit j = false := by
  apply Nat.testBit_lt_two_pow
  exact lt_of_lt_of_le hv (Nat.pow_le_pow_right (by norm_num) hj)

/-- Embedding of the masked-word read,
`detail::register_data<T, Offset, Size, access_mode::bitwise_logic, ...>::get`:
`(register_ & mask) >> Offset` with `mask = bit_mask_v<Offset, Size>`.  The
final `static_cast<value_type>` does not change the raw bit pattern. -/
def bitwise_logic_get (offset size word : Nat) : Nat :=
  (word &&& bit_mask offset size) >>> offset

/-- Embedding of the masked-word write,
`detail::register_data<T, Offset, Size, access_mode::bitwise_logic, ...>::set`:
`register_ |= (static_cast<raw_register>(value) << Offset) & mask`.  The cast
to the 32-bit `raw_register` and the 32-bit shift are the explicit
`% 2 ^ 32` reductions. -/
def bitwise_logic_set (offset size word value : Nat) : Nat :=
  word ||| ((((value % 2 ^ 32) <<< offset) % 2 ^ 32) &&& bit_mask offset size)

/-- Embedding of the direct-bitfield read,
`detail::register_data<T, Offset, Size, access_mode::field, ...>::get`:
returns the bitfield member `value_ : Size`, i.e. the bits of the storage
word in positions `[Offset, Offset + Size)`, per the native C++ bitfield
layout (`pad_ : Offset` occupies `[0, Offset)`). -/
def field_get (offset size word : Nat) : Nat :=
  (word >>> offset) % 2 ^ size

/-- Embedding of the direct-bitfield write,
`detail::register_data<T, Offset, Size, access_mode::field, ...>::set`:
`value_ = static_cast<value_type>(value)` stores the low `Size` bits of the
value into the bitfield at `[Offset, Offset + Size)`; native bitfield
insertion leaves every other bit of the storage word unchanged. -/
def field_set (offset size word value : Nat) : Nat :=
  (word % 2 ^ offset) ||| ((value % 2 ^ size) <<< offset)
    ||| ((word >>> (offset + size)) <<< (offset + size))

/-- Bit-level description of `bitwise_logic_set`: bit `j` of the result is
bit `j` of the old word, OR-ed with bit `j - offset` of the value when `j`
lies in the field's mask range. -/
theorem testBit_bitwise_logic_set (offset size word value : Nat)
    (h : offset + size ≤ 32) (j : Nat) :
    (bitwise_logic_set offset size word value).testBit j
      = (word.testBit j
          || (decide (offset ≤ j ∧ j < offset + size) && value.testBit (j - offset))) := by
  simp only [bitwise_logic_set, Nat.testBit_or, Nat.testBit_and,
    Nat.testBit_mod_two_pow, Nat.testBit_shiftLeft, testBit_bit_mask]
  by_cases h1 : offset ≤ j
  · by_cases h2 : j < offset + size
    · have hj32 : j < 32 := by omega
      have hjo32 : j - offset < 32 := by omega
      simp [h1, h2, hj32, hjo32]
    · simp [h2]
  · simp [h1]

/-- Bit-level description of `field_set`: bits inside `[offset, offset+size)`
come from the value, all other bits are the old word's. -/
theorem testBit_field_set (offset size word value : Nat) (j : Nat) :
    (field_set offset size word value).testBit j
      = if offset ≤ j ∧ j < offset + size then value.testBit (j - offset)
        else word.testBit j := by
  simp only [field_set, Nat.testBit_or, Nat.testBit_mod_two_pow,
    Nat.testBit_shiftLeft, Nat.testBit_shiftRight]
  by_cases h1 : offset ≤ j
  · by_cases h2 : j < offset + size
    · have hlow : ¬j < offset := by omega
      have hmid : j - offset < size := by omega
      have hhigh : ¬offset + size ≤ j := by omega
      simp [h1, h2, hlow, hmid, hhigh]
    · have hlow : ¬j < offset := by omega
      have hmid : ¬j - offset < size := by omega
      have hhigh : offset + size ≤ j := by omega
      have harith : offset + size + (j - (offset + size)) = j := by omega
      simp [h1, h2, hlow, hmid, hhigh, harith]
  · have hlow : j < offset := by omega
    have hhigh : ¬offset + size ≤ j := by omega
    simp [h1, hlow, hhigh]

/-- Bit-level description of `bitwise_logic_get`: bit `j` of the read value
is bit `offset + j` of the word, for `j` below the field width. -/
theorem testBit_bitwise_logic_get (offset size word j : Nat) :
    (bitwise_logic_get offset size word).testBit j
      = (word.testBit (offset + j) && decide (j < size)) := by
  have hiff : (offset ≤ offset + j ∧ offset + j < offset + size) ↔ j < size := by omega
  simp [bitwise_logic_get, Nat.testBit_shiftRight, Nat.testBit_and,
    testBit_bit_mask, hiff]

/-- Bit-level description of `field_get`: bit `j` of the read value is bit
`offset + j` of the word, for `j` below the field width. -/
theorem testBit_field_get (offset size word j : Nat) :
    (field_get offset size word).testBit j
      = (word.testBit (offset + j) && decide (j < size)) := by
  simp [field_get, Nat.testBit_mod_two_pow, Nat.testBit_shiftRight,
    Bool.and_comm]

/-- C5: for all valid `(offset, width)` with `offset + width ≤ 32`,
`bit_mask offset width` has exactly `width` set bits, all in positions
`[offset, offset + width)` counted from the LSB, all other bits zero, and
it equals `bit_sequence width <<< offset`. -/
theorem bit_mask_spec (offset width : Nat) (h : offset + width ≤ 32)
    (hw : 0 < width) :
    ((Finset.range 32).filter
        (fun j => (bit_mask offset width).testBit j = true)).card = width ∧
    (∀ j, (bit_mask offset width).testBit j = true ↔
        offset ≤ j ∧ j < offset + width) ∧
    bit_mask offset width = bit_sequence width <<< offset := by
  refine ⟨?_, ?_, rfl⟩
  · have hset : (Finset.range 32).filter
        (fun j => (bit_mask offset width).testBit j = true)
        = Finset.Ico offset (offset + width) := by
      ext j
      simp only [Finset.mem_filter, Finset.mem_range, Finset.mem_Ico,
        testBit_bit_mask, decide_eq_true_eq]
      omega
    rw [hset, Nat.card_Ico]
    omega
  · intro j
    simp [testBit_bit_mask]

/-- Witness for `bit_mask_spec` at `offset = 3`, `width = 5`. -/
theorem bit_mask_spec_witness :
    (3 + 5 ≤ 32 ∧ 0 < 5) ∧
    (((Finset.range 32).filter
        (fun j => (bit_mask 3 5).testBit j = true)).card = 5 ∧
      (∀ j, (bit_mask 3 5).testBit j = true ↔ 3 ≤ j ∧ j < 3 + 5) ∧
      bit_mask 3 5 = bit_sequence 5 <<< 3) :=
  ⟨by decide, bit_mask_spec 3 5 (by decide) (by decide)⟩

/-- C1: for a masked-word (`access_mode::bitwise_logic`) field of width
`width` at `offset`, starting from a zeroed backing word, `set v; get` reads
back `v`; `set v1; set v2; get` reads back `v1 ||| v2`; and `set` is an
OR-accumulation that never clears a bit already set in the word. -/
theorem masked_set_is_accumulating (offset width v v1 v2 : Nat)
    (h : offset + width ≤ 32) (hv : v < 2 ^ width)
    (hv1 : v1 < 2 ^ width) (hv2 : v2 < 2 ^ width) :
    bitwise_logic_get offset width (bitwise_logic_set offset width 0 v) = v ∧
    bitwise_logic_get offset width
        (bitwise_logic_set offset width
          (bitwise_logic_set offset width 0 v1) v2) = v1 ||| v2 ∧
    (∀ word j, word.testBit j = true →
      (bitwise_logic_set offset width word v).testBit j = true) := by
  refine ⟨?_, ?_, ?_⟩
  · apply Nat.eq_of_testBit_eq
    intro j
    rw [testBit_bitwise_logic_get, testBit_bitwise_logic_set offset width _ _ h]
    by_cases hj : j < width
    · have hcond : offset ≤ offset + j ∧ offset + j < offset + width := by omega
      simp [hj, hcond, Nat.add_sub_cancel_left]
    · have hval : v.testBit j = false :=
        testBit_eq_false_of_lt_pow v width j hv (by omega)
      simp [hj, hval]
  · apply Nat.eq_of_testBit_eq
    intro j
    rw [testBit_bitwise_logic_get, testBit_bitwise_logic_set offset width _ _ h,
      testBit_bitwise_logic_set offset width _ _ h]
    by_cases hj : j < width
    · have hcond : offset ≤ offset + j ∧ offset + j < offset + width := by omega
      simp [hj, hcond, Nat.add_sub_cancel_left, Nat.testBit_or]
    · have hval1 : v1.testBit j = false :=
        testBit_eq_false_of_lt_pow v1 width j hv1 (by omega)
      have hval2 : v2.testBit j = false :=
        testBit_eq_false_of_lt_pow v2 width j hv2 (by omega)
      simp [hj, Nat.testBit_or, hval1, hval2]
  · intro word j hbit
    simp [bitwise_logic_set, Nat.testBit_or, hbit]

/-- Witness for `masked_set_is_accumulating` at `offset = 5`, `width = 3`,
`v = 5`, `v1 = 5`, `v2 = 2`. -/
theorem masked_set_is_accumulating_witness :
    (5 + 3 ≤ 32 ∧ 5 < 2 ^ 3 ∧ 5 < 2 ^ 3 ∧ 2 < 2 ^ 3) ∧
    (bitwise_logic_get 5 3 (bitwise_logic_set 5 3 0 5) = 5 ∧
      bitwise_logic_get 5 3
          (bitwise_logic_set 5 3 (bitwise_logic_set 5 3 0 5) 2) = 5 ||| 2 ∧
      (∀ word j, word.testBit j = true →
        (bitwise_logic_set 5 3 word 5).testBit j = true)) :=
  ⟨by decide,
    masked_set_is_accumulating 5 3 5 5 2 (by decide) (by decide) (by decide)
      (by decide)⟩

/-- C3: a masked-word field read is `(word &&& bit_mask offset width) >>>
offset`, and it depends only on the bits of the backing word inside
`[offset, offset + width)`. -/
theorem masked_get_shift_and_mask (offset width word word2 : Nat)
    (h : ∀ j, offset ≤ j → j < offset + width →
      word.testBit j = word2.testBit j) :
    bitwise_logic_get offset width word
        = (word &&& bit_mask offset width) >>> offset ∧
    bitwise_logic_get offset width word = bitwise_logic_get offset width word2 := by
  refine ⟨rfl, ?_⟩
  apply Nat.eq_of_testBit_eq
  intro j
  rw [testBit_bitwise_logic_get, testBit_bitwise_logic_get]
  by_cases hj : j < width
  · rw [h (offset + j) (by omega) (by omega)]
  · simp [hj]

/-- Witness for `masked_get_shift_and_mask` on two words agreeing on bits
`[5, 8)`. -/
theorem masked_get_shift_and_mask_witness :
    (∀ j, 5 ≤ j → j < 5 + 3 → Nat.testBit 0xE0 j = Nat.testBit 0xE0 j) ∧
    (bitwise_logic_get 5 3 0xE0 = (0xE0 &&& bit_mask 5 3) >>> 5 ∧
      bitwise_logic_get 5 3 0xE0 = bitwise_logic_get 5 3 0xE0) :=
  ⟨fun _ _ _ => rfl, masked_get_shift_and_mask 5 3 0xE0 0xE0 (fun _ _ _ => rfl)⟩

/-- C4: for a read-write direct-bitfield (`access_mode::field`) field of
width `width` at `offset`, `set v; get` reads back `v` for every `v` below
`2 ^ width`, and `set` leaves every bit of the backing word outside
`[offset, offset + width)` unchanged. -/
theorem field_set_roundtrip (offset width word v : Nat)
    (h : offset + width ≤ 32) (hv : v < 2 ^ width) :
    field_get offset width (field_set offset width word v) = v ∧
    (∀ j, j < offset ∨ offset + width ≤ j →
      (field_set offset width word v).testBit j = word.testBit j) := by
  constructor
  · apply Nat.eq_of_testBit_eq
    intro j
    rw [testBit_field_get, testBit_field_set]
    by_cases hj : j < width
    · have hcond : offset ≤ offset + j ∧ offset + j < offset + width := by omega
      simp [hj, hcond, Nat.add_sub_cancel_left]
    · have hcond : ¬(offset ≤ offset + j ∧ offset + j < offset + width) := by
        omega
      have hval : v.testBit j = false :=
        testBit_eq_false_of_lt_pow v width j hv (by omega)
      have hword : (word.testBit (offset + j) && decide (j < width)) = false := by
        simp [hj]
      simp only [hcond, if_false, hword, hval]
  · intro j hj
    rw [testBit_field_set]
    have hcond : ¬(offset ≤ j ∧ j < offset + width) := by omega
    simp [hcond]

/-- Witness for `field_set_roundtrip` at `offset = 3`, `width = 4`,
`word = 0xFFFFFFFF`, `v = 9`. -/
theorem field_set_roundtrip_witness :
    (3 + 4 ≤ 32 ∧ 9 < 2 ^ 4) ∧
    (field_get 3 4 (field_set 3 4 0xFFFFFFFF 9) = 9 ∧
      (∀ j, j < 3 ∨ 3 + 4 ≤ j →
        (field_set 3 4 0xFFFFFFFF 9).testBit j = Nat.testBit 0xFFFFFFFF j)) :=
  ⟨by decide, field_set_roundtrip 3 4 0xFFFFFFFF 9 (by decide) (by decide)⟩

/-- C8 (corrected scenario): for a masked 3-bit field at offset 5 over an
initially zero 32-bit word, `set 0b101` makes the word `0x000000A0` (not
`0x00000A00` as the spec scenario states); the subsequent `set 0b010`
accumulates to `0x000000E0`, not `0x00000040`. -/
theorem masked_scenario_word_values :
    bitwise_logic_set 5 3 0 0b101 = 0x000000A0 ∧
    bitwise_logic_set 5 3 (bitwise_logic_set 5 3 0 0b101) 0b010 = 0x000000E0 ∧
    bitwise_logic_set 5 3 (bitwise_logic_set 5 3 0 0b101) 0b010 ≠ 0x00000040 := by
  refine ⟨by decide, by decide, by decide⟩

/-- C8 counterexample to the claim as stated: `set 0b101` from a zero word
yields `0x000000A0`, not the claimed `0x00000A00`. -/
theorem masked_scenario_claim_false :
    bitwise_logic_set 5 3 0 0b101 ≠ 0x00000A00 := by
  decide

/-- Embedding of `register_field_base::operator==(value_type const&)` of
`registers.hpp`: the source body is `return get() == get();`, which compares
the field's read value with itself and ignores the `other` argument.  The
field is taken in its masked-word form; `other` is the raw comparand. -/
def field_base_eq_value (offset size word other : Nat) : Bool :=
  bitwise_logic_get offset size word == bitwise_logic_get offset size word

/-- Embedding of `register_field_base::operator!=(value_type const&)`:
`return !(*this == other);`, which resolves to the value-comparison
`operator==` above. -/
def field_base_ne_value (offset size word other : Nat) : Bool :=
  !field_base_eq_value offset size word other

/-- C2 (code bug): comparing a field whose read value is `0` against the raw
value `1`, the source `operator==` returns `true` even though `get() ≠ 1`,
because its body compares `get()` with `get()` instead of with the argument;
`operator!=` consequently returns `false`. -/
theorem field_eq_value_ignores_argument :
    field_base_eq_value 0 1 0 1 = true ∧
    field_base_ne_value 0 1 0 1 = false ∧
    bitwise_logic_get 0 1 0 ≠ 1 := by
  refine ⟨rfl, rfl, by decide⟩

/-- One element accessor of a register field array: embedding of
`detail::array_field_accessor_base<T, Size>`.  The member `reg_` is a
possibly-null pointer to one backing word, modelled as an optional index
into the word array; `offset_` is the in-word bit offset.  The mask width
`Size` is a template parameter, carried here as `size`. -/
structure array_field_accessor where
  reg : Option Nat
  offset : Nat
  size : Nat

/-- Embedding of `array_field_accessor_base::get`: returns `0` when `reg_`
is null, otherwise `(*reg_ >> offset_) & mask` with
`mask = bit_mask_v<0, Size>`. -/
def accessor_get (acc : array_field_accessor) (data : Nat → Nat) : Nat :=
  match acc.reg with
  | none => 0
  | some r => (data r >>> acc.offset) &&& bit_mask 0 acc.size

/-- Embedding of `array_field_accessor_base::set`: a no-op when `reg_` is
null, otherwise `*reg_ |= (static_cast<raw_register>(val) & mask) <<
offset_`; the result is the updated word array. -/
def accessor_set (acc : array_field_accessor) (data : Nat → Nat) (val : Nat) :
    Nat → Nat :=
  match acc.reg with
  | none => data
  | some r => fun i =>
      if i = r then data r ||| (((val % 2 ^ 32) &&& bit_mask 0 acc.size) <<< acc.offset)
      else data i

/-- Embedding of `register_field_array_base<T, FieldSize, FieldCount, ...,
FieldStorageSize, InitialOffset>::get`: returns `0` for an out-of-range
index, otherwise reads `FieldSize` bits at `bit_number = index *
FieldStorageSize + InitialOffset` from word `bit_number / register_bits` at
in-word offset `bit_number % register_bits`.  The backing
`raw_register data_[RegisterCount]` is modelled as the word function
`data`. -/
def array_get (fieldSize fieldCount fieldStorageSize initialOffset : Nat)
    (data : Nat → Nat) (index : Nat) : Nat :=
  if index ≥ fieldCount then 0
  else
    let bitNumber := index * fieldStorageSize + initialOffset
    let regNumber := bitNumber / register_bits
    let regOffset := bitNumber % register_bits
    (data regNumber >>> regOffset) &&& bit_mask 0 fieldSize

/-- Embedding of `register_field_array_base::get_accessor`: returns the
value-initialised accessor (`reg_` null) for an out-of-range index,
otherwise an accessor bound to word `bit_number / register_bits` at in-word
offset `bit_number % register_bits`. -/
def get_accessor (fieldSize fieldCount fieldStorageSize initialOffset : Nat)
    (index : Nat) : array_field_accessor :=
  if index ≥ fieldCount then ⟨none, 0, fieldSize⟩
  else
    let bitNumber := index * fieldStorageSize + initialOffset
    ⟨some (bitNumber / register_bits), bitNumber % register_bits, fieldSize⟩

/-- C6: out-of-range access to a field array is fully inert: `get` returns
zero, and the accessor returned for such an index reads zero and leaves the
backing words untouched under `set`. -/
theorem array_out_of_range_is_inert
    (fieldSize fieldCount fieldStorageSize initialOffset index : Nat)
    (data : Nat → Nat) (h : fieldCount ≤ index) :
    array_get fieldSize fieldCount fieldStorageSize initialOffset data index = 0 ∧
    accessor_get (get_accessor fieldSize fieldCount fieldStorageSize
        initialOffset index) data = 0 ∧
    (∀ val, accessor_set (get_accessor fieldSize fieldCount fieldStorageSize
        initialOffset index) data val = data) := by
  refine ⟨?_, ?_, ?_⟩
  · simp [array_get, h]
  · simp [get_accessor, h, accessor_get]
  · intro val
    simp [get_accessor, h, accessor_set]

/-- Witness for `array_out_of_range_is_inert` on the NVIC interrupt-enable
shape (240 one-bit fields) at index 240. -/
theorem array_out_of_range_is_inert_witness :
    240 ≤ 240 ∧
    (array_get 1 240 1 0 (fun _ => 0xFFFFFFFF) 240 = 0 ∧
      accessor_get (get_accessor 1 240 1 0 240) (fun _ => 0xFFFFFFFF) = 0 ∧
      (∀ val, accessor_set (get_accessor 1 240 1 0 240) (fun _ => 0xFFFFFFFF) val
        = (fun _ => 0xFFFFFFFF))) :=
  ⟨by decide,
    array_out_of_range_is_inert 1 240 1 0 240 (fun _ => 0xFFFFFFFF)
      (by decide)⟩

/-- C7: for an in-range index the element position is `bit_number = index *
fieldStorageSize + initialOffset`, owning word `bit_number / 32`, in-word
offset `bit_number % 32`; for the 240-element one-bit array over 8 words
(`element_storage_width = 1`, `initial_offset = 0`), index `i` resolves to
word `i / 32` (which is below 8) and in-word bit `i % 32`. -/
theorem field_array_index_resolution
    (fieldSize fieldCount fieldStorageSize initialOffset i : Nat)
    (hi : i < fieldCount) :
    get_accessor fieldSize fieldCount fieldStorageSize initialOffset i
        = ⟨some ((i * fieldStorageSize + initialOffset) / 32),
            (i * fieldStorageSize + initialOffset) % 32, fieldSize⟩ ∧
    (i < 240 →
      get_accessor 1 240 1 0 i = ⟨some (i / 32), i % 32, 1⟩ ∧
      (∀ data : Nat → Nat,
        array_get 1 240 1 0 data i = (data (i / 32) >>> (i % 32)) &&& bit_mask 0 1) ∧
      i / 32 < 8) := by
  refine ⟨?_, ?_⟩
  · simp [get_accessor, Nat.not_le.mpr hi, register_bits]
  · intro h240
    refine ⟨?_, ?_, by omega⟩
    · simp [get_accessor, Nat.not_le.mpr h240, register_bits]
    · intro data
      simp [array_get, Nat.not_le.mpr h240, register_bits]

/-- Witness for `field_array_index_resolution` at the indices 0, 31, 32 and
239 of the 240-element one-bit array. -/
theorem field_array_index_resolution_witness :
    ((0 : Nat) < 240 ∧ (31 : Nat) < 240 ∧ (32 : Nat) < 240 ∧ (239 : Nat) < 240) ∧
    (get_accessor 1 240 1 0 0 = ⟨some (0 / 32), 0 % 32, 1⟩ ∧
      get_accessor 1 240 1 0 31 = ⟨some (31 / 32), 31 % 32, 1⟩ ∧
      get_accessor 1 240 1 0 32 = ⟨some (32 / 32), 32 % 32, 1⟩ ∧
      get_accessor 1 240 1 0 239 = ⟨some (239 / 32), 239 % 32, 1⟩) :=
  ⟨by decide,
    ((field_array_index_resolution 1 240 1 0 0 (by decide)).2 (by decide)).1,
    ((field_array_index_resolution 1 240 1 0 31 (by decide)).2 (by decide)).1,
    ((field_array_index_resolution 1 240 1 0 32 (by decide)).2 (by decide)).1,
    ((field_array_index_resolution 1 240 1 0 239 (by decide)).2 (by decide)).1⟩

/-- Bound for a value masked by `bit_mask 0 size`: it is below `2 ^ size`. -/
theorem and_bit_mask_zero_lt (x size : Nat) : x &&& bit_mask 0 size < 2 ^ size := by
  have hle : x &&& bit_mask 0 size ≤ bit_mask 0 size := Nat.and_le_right
  have hmask : bit_mask 0 size = 2 ^ size - 1 := by
    rw [bit_mask, bit_sequence_eq, Nat.shiftLeft_zero]
  have hpos : 0 < 2 ^ size := Nat.pos_pow_of_pos size (by norm_num)
  omega

/-- C10: every read path of the register system yields a raw value strictly
below `2 ^ w` for its declared bit width `w`: the masked-word `get`, the
direct-bitfield `get`, the array accessor `get`, and the indexed array
`get`.  No read exposes bits outside the field's own range, whatever the
rest of the backing word contains. -/
theorem get_results_below_field_width (offset width word : Nat)
    (fieldSize fieldCount fieldStorageSize initialOffset index : Nat)
    (data : Nat → Nat) (acc : array_field_accessor) :
    bitwise_logic_get offset width word < 2 ^ width ∧
    field_get offset width word < 2 ^ width ∧
    accessor_get acc data < 2 ^ acc.size ∧
    array_get fieldSize fieldCount fieldStorageSize initialOffset data index
      < 2 ^ fieldSize := by
  have hpos : ∀ n : Nat, 0 < 2 ^ n := fun n => Nat.pos_pow_of_pos n (by norm_num)
  refine ⟨?_, ?_, ?_, ?_⟩
  · have hle : (word &&& bit_mask offset width) >>> offset
        ≤ bit_mask offset width >>> offset := by
      simp only [Nat.shiftRight_eq_div_pow]
      exact Nat.div_le_div_right Nat.and_le_right
    have hmask : bit_mask offset width >>> offset = 2 ^ width - 1 := by
      rw [bit_mask, bit_sequence_eq, Nat.shiftLeft_eq, Nat.shiftRight_eq_div_pow,
        Nat.mul_div_cancel _ (hpos offset)]
    have := hpos width
    rw [bitwise_logic_get]
    omega
  · exact Nat.mod_lt _ (hpos width)
  · rcases acc with ⟨reg, aoffset, asize⟩
    cases reg with
    | none => exact hpos asize
    | some r => exact and_bit_mask_zero_lt _ asize
  · rw [array_get]
    by_cases h : index ≥ fieldCount
    · simp only [h, if_true]
      exact hpos fieldSize
    · simp only [h, if_false]
      exact and_bit_mask_zero_lt _ fieldSize

/-- Number of 32-bit registers used by ISER, ICER, ISPR, ICPR and IABR:
`interrupt_reg_count` of `nvic.hpp`. -/
def interrupt_reg_count : Nat := 8

/-- Number of NVIC external interrupts: `interrupt_count` of `nvic.hpp`. -/
def interrupt_count : Nat := 240

/-- Byte size of `raw_register` (`std::uint32_t`). -/
def sizeof_raw_register : Nat := 4

/-- Word counts of the members of `nvic_registers` in declaration order:
`iser_`, `reserved_0_[24]`, `icer_`, `reserved_1_[24]`, `ispr_`,
`reserved_2_[24]`, `icpr_`, `reserved_3_[24]`, `iabr_`, `reserved_4_[56]`,
`ip_` (a field array over `interrupt_count / 4` words), `reserved_5_[644]`
and `stir_` (one word). -/
def nvic_member_word_counts : List Nat :=
  [interrupt_reg_count, 24, interrupt_reg_count, 24, interrupt_reg_count, 24,
    interrupt_reg_count, 24, interrupt_reg_count, 56, interrupt_count / 4,
    644, 1]

/-- Byte size of the `nvic` device layout: the members are consecutive
32-bit words, so `sizeof(nvic)` is 4 bytes per word. -/
def sizeof_nvic : Nat := sizeof_raw_register * nvic_member_word_counts.sum

/-- The NVIC device base address, `nvic_registers::base_address`. -/
def nvic_base_address : Nat := 0xe000e100

/-- C9: the NVIC layout's total size equals
`4 * (8+24+8+24+8+24+8+24+8+56+60+644+1)` bytes, which is the documented
end address `0xe000ef04` minus the device base address `0xe000e100`,
i.e. 897 32-bit words. -/
theorem nvic_layout_size :
    sizeof_nvic = 4 * (8 + 24 + 8 + 24 + 8 + 24 + 8 + 24 + 8 + 56 + 60 + 644 + 1) ∧
    sizeof_nvic = 0xe000ef04 - nvic_base_address ∧
    nvic_member_word_counts.sum = 897 := by
  refine ⟨by decide, by decide, by decide⟩

end armpp
